import Mathlib

/-
Shallow embedding of the motion-signal comparison engine of the
running-form repository (src/src/App.jsx, functions linInterp,
fillNaLinear, findLocalMinima, cyclesNormalize, rmse, avg, stdev and the
orchestrating callback runCompareMulti).

Modelling conventions:
* JS numbers are modelled as rationals.  A JS value that may be null is
  modelled as an Option of a rational.
* JS array reads a[i] are modelled with List.getD; out-of-range reads use
  the default 0 (JS would yield undefined and then NaN in arithmetic).
  Every claim proved below only exercises in-range reads, except for one
  explicitly commented corner (an all-null input to fillNaLinear) where
  only the non-nullness of the produced entries matters, which agrees
  with JS (NaN is a number, not null).
* Division by zero is 0 for rationals while it is NaN or Infinity in JS.
  Wherever a division from the source appears in a theorem, a hypothesis
  or a proved fact guarantees the denominator is nonzero, except in the
  explicitly vacuous conjunct of the claim about zero-width brackets,
  whose antecedent is proved unreachable in the same theorem.
* Math.sqrt has no rational counterpart, so rmse is split into a
  computable radicand (the mean of squared differences, rmseSq) and a
  noncomputable wrapper applying Real.sqrt.  The orchestrator state
  stores the radicand; Math.sqrt is strictly monotone and applied
  pointwise at the end, so nullness and equality/inequality of RMSE
  values are faithfully decided by the radicand.
-/

namespace RunningForm

/-- JS array read a[i] for an array of plain numbers (default 0 stands for
the unreachable out-of-range read). -/
def nthD (l : List ℚ) (n : ℕ) : ℚ := l.getD n 0

/-- JS array read a[i] for an array of number-or-null entries. -/
def onth (l : List (Option ℚ)) (n : ℕ) : Option ℚ := l.getD n none

/-- JS array read a[i] coerced to a number (JS coerces null to 0 in
arithmetic; out of range is unreachable in every proved path). -/
def jval (l : List (Option ℚ)) (n : ℕ) : ℚ := (l.getD n none).getD 0

/-- Sum of a list of rationals, as the JS reduce((a,b)=>a+b,0). -/
def listSum (l : List ℚ) : ℚ := l.foldl (· + ·) 0

/-- JS Math.max(...l) for a nonempty list (the empty case, JS -Infinity,
is unreachable in every use below and mapped to 0). -/
def jsMaxOf (l : List ℚ) : ℚ :=
  match l with
  | [] => 0
  | h :: t => t.foldl max h

/-- JS Math.min(...l) for a nonempty list (empty case unreachable). -/
def jsMinOf (l : List ℚ) : ℚ :=
  match l with
  | [] => 0
  | h :: t => t.foldl min h

/-! ## linInterp (App.jsx lines 1956-1965)

JS source:
  function linInterp(x, xp, yp) \x7b
    if (!xp.length || !yp.length) return null;
    if (x <= xp[0]) return yp[0];
    if (x >= xp[xp.length-1]) return yp[yp.length-1];
    let i = 1;
    while (i < xp.length && xp[i] < x) i++;
    const x0 = xp[i-1], x1 = xp[i];
    const y0 = yp[i-1], y1 = yp[i];
    return y0 + (y1-y0) * (x-x0)/(x1-x0);
  \x7d
-/

/-- The while loop of linInterp: starting at index i with the remaining
entries l = xp.drop i, advance while the entry is < x. -/
def scanAux (x : ℚ) : List ℚ → ℕ → ℕ
  | [], i => i
  | v :: rest, i => if v < x then scanAux x rest (i + 1) else i

/-- Index reached by the linInterp while loop (starts at i = 1). -/
def scanIdx (xp : List ℚ) (x : ℚ) : ℕ := scanAux x (xp.drop 1) 1

/-- Piecewise-linear interpolation with endpoint clamping, translated
line by line from linInterp. -/
def linInterp (x : ℚ) (xp yp : List ℚ) : Option ℚ :=
  if xp.length = 0 ∨ yp.length = 0 then none
  else if x ≤ nthD xp 0 then some (nthD yp 0)
  else if nthD xp (xp.length - 1) ≤ x then some (nthD yp (yp.length - 1))
  else
    let i := scanIdx xp x
    let x0 := nthD xp (i - 1)
    let x1 := nthD xp i
    let y0 := nthD yp (i - 1)
    let y1 := nthD yp i
    some (y0 + (y1 - y0) * (x - x0) / (x1 - x0))

/-! ## fillNaLinear (App.jsx lines 1968-1981)

JS source:
  function fillNaLinear(xp, yp) \x7b
    const y = yp.slice();
    let i = 0; while (i < y.length && y[i] == null) i++;
    if (i > 0 && i < y.length) for (let k = 0; k < i; k++) y[k] = y[i];
    let j = y.length - 1; while (j >= 0 && y[j] == null) j--;
    if (j >= 0 && j < y.length - 1) for (let k = j + 1; k < y.length; k++) y[k] = y[j];
    for (let a = 0; a < y.length; a++) if (y[a] == null) \x7b
      let b = a; while (b < y.length && y[b] == null) b++;
      const y0 = y[a - 1], y1 = y[b], x0 = xp[a - 1], x1 = xp[b];
      for (let k = a; k < b; k++) y[k] = y0 + (y1 - y0) * (xp[k] - x0) / (x1 - x0);
      a = b;
    \x7d
    return y;
  \x7d
-/

/-- Index of the first non-null entry of a list (its length when every
entry is null): the upward while loop of fillNaLinear. -/
def firstSomeIdx : List (Option ℚ) → ℕ
  | [] => 0
  | v :: rest => if v.isSome then 0 else firstSomeIdx rest + 1

/-- Index of the last non-null entry of a list, none when every entry is
null: the downward while loop of fillNaLinear (JS j = -1 becomes none). -/
def lastSomeIdx : List (Option ℚ) → Option ℕ
  | [] => none
  | v :: rest =>
    match lastSomeIdx rest with
    | some j => some (j + 1)
    | none => if v.isSome then some 0 else none

/-- Fill of the leading null run with the first valid value. -/
def fillLeading (y : List (Option ℚ)) : List (Option ℚ) :=
  let i := firstSomeIdx y
  if 0 < i ∧ i < y.length then
    (List.range y.length).map (fun k => if k < i then y.getD i none else y.getD k none)
  else y

/-- Fill of the trailing null run with the last valid value. -/
def fillTrailing (y : List (Option ℚ)) : List (Option ℚ) :=
  match lastSomeIdx y with
  | none => y
  | some j =>
    if j + 1 < y.length then
      (List.range y.length).map (fun k => if j < k then y.getD j none else y.getD k none)
    else y

/-- The inner for loop of the interior pass of fillNaLinear: overwrite
positions [a, b) with the linear interpolation between the values read
at a-1 and b, in the time coordinates xp (the reads y0, y1, x0, x1
happen before the writes, exactly as the JS captures them in consts). -/
def writeRun (xp : List ℚ) (y : List (Option ℚ)) (a b : ℕ) : List (Option ℚ) :=
  (List.range y.length).map (fun k =>
    if a ≤ k ∧ k < b then
      some (jval y (a - 1) +
        (jval y b - jval y (a - 1)) * (nthD xp k - nthD xp (a - 1)) /
          (nthD xp b - nthD xp (a - 1)))
    else y.getD k none)

/-- The interior pass of fillNaLinear: scan from index a; a null run
[a, b) bounded by the next valid index b is overwritten via writeRun,
and the scan resumes at b.  Since the current entry at a is null, the
JS scan for b is equivalently started at a + 1. -/
def fillInterior (xp : List ℚ) (y : List (Option ℚ)) (a : ℕ) : List (Option ℚ) :=
  if _h : a < y.length then
    if (y.getD a none).isSome then fillInterior xp y (a + 1)
    else
      let b := a + 1 + firstSomeIdx (y.drop (a + 1))
      fillInterior xp (writeRun xp y a b) b
  else y
termination_by y.length + 1 - a
decreasing_by
  · omega
  · simp only [writeRun, List.length_map, List.length_range]
    omega

/-- fillNaLinear: endpoint nulls by nearest valid value, interior null
runs by time-based linear interpolation. -/
def fillNaLinear (xp : List ℚ) (yp : List (Option ℚ)) : List (Option ℚ) :=
  fillInterior xp (fillTrailing (fillLeading yp)) 0

/-! ## findLocalMinima (App.jsx lines 1984-2002)

JS source:
  function findLocalMinima(t, y, \x7bprominence=8, minGapSec=0.35\x7d = \x7b\x7d) \x7b
    const idxs = [];
    for (let i = 1; i < y.length - 1; i++) \x7b
      if (y[i] <= y[i-1] && y[i] <= y[i+1]) idxs.push(i);
    \x7d
    const kept = [];
    let lastKeepT = -1e9;
    for (const i of idxs) \x7b
      const left = Math.max(0, i-10), right = Math.min(y.length-1, i+10);
      const leftMax  = Math.max(...y.slice(left, i));
      const rightMax = Math.max(...y.slice(i+1, right+1));
      const prom = Math.min(leftMax - y[i], rightMax - y[i]);
      if (prom >= prominence && (t[i] - lastKeepT) >= minGapSec) \x7b
        kept.push(i);
        lastKeepT = t[i];
      \x7d
    \x7d
    return kept;
  \x7d
-/

/-- JS y.slice(a, b): entries at indices a (inclusive) to b (exclusive). -/
def sliceOf (y : List ℚ) (a b : ℕ) : List ℚ := (y.drop a).take (b - a)

/-- Prominence of the candidate minimum at index i, over a window of up
to 10 samples on each side clipped to the array bounds. -/
def prominenceAt (y : List ℚ) (i : ℕ) : ℚ :=
  let left := i - 10
  let right := min (y.length - 1) (i + 10)
  let leftMax := jsMaxOf (sliceOf y left i)
  let rightMax := jsMaxOf (sliceOf y (i + 1) (right + 1))
  min (leftMax - nthD y i) (rightMax - nthD y i)

/-- Indices of the raw local-minimum candidates (interior indices whose
value is at most both neighbours). -/
def minimaCandidates (y : List ℚ) : List ℕ :=
  (List.range y.length).filter (fun i =>
    decide (1 ≤ i ∧ i + 1 < y.length ∧
      nthD y i ≤ nthD y (i - 1) ∧ nthD y i ≤ nthD y (i + 1)))

/-- One step of the greedy left-to-right selection: state is the kept
list together with lastKeepT. -/
def keepStep (t y : List ℚ) (prominence minGapSec : ℚ)
    (st : List ℕ × ℚ) (i : ℕ) : List ℕ × ℚ :=
  if prominence ≤ prominenceAt y i ∧ minGapSec ≤ nthD t i - st.2 then
    (st.1 ++ [i], nthD t i)
  else st

/-- Prominence- and gap-filtered local minima (greedy selection,
lastKeepT initialised to -1e9). -/
def findLocalMinima (t y : List ℚ) (prominence minGapSec : ℚ) : List ℕ :=
  ((minimaCandidates y).foldl (keepStep t y prominence minGapSec)
    ([], -(10 ^ 9 : ℚ))).1

/-! ## cyclesNormalize (App.jsx lines 2005-2017), rmse (2020-2025),
avg and stdev (2028-2029) -/

/-- One normalized cycle: phase grid, resampled values, raw duration. -/
structure Cyc where
  normT : List ℚ
  normV : List ℚ
  dur : ℚ
deriving DecidableEq

/-- Cycle normalization: every pair of consecutive peak indices gives a
cycle, resampled at N evenly spaced phase fractions via linInterp.  The
JS normV entries are numbers or null (null only when times or values is
empty); values of normV are read back through the JS null-to-0 arithmetic
coercion, modelled by getD 0. -/
def cyclesNormalize (times values : List ℚ) (peaks : List ℕ) (N : ℕ) : List Cyc :=
  (peaks.zip peaks.tail).map (fun pq =>
    let t0 := nthD times pq.1
    let t1 := nthD times pq.2
    let normT := (List.range N).map (fun i => (i : ℚ) / ((N : ℚ) - 1))
    let normV := normT.map (fun frac =>
      (linInterp (t0 + frac * (t1 - t0)) times values).getD 0)
    { normT := normT, normV := normV, dur := t1 - t0 })

/-- Radicand of the JS rmse: mean of squared differences over positions
below the shorter length (the zip pairs arr1[i] with arr2[i] exactly for
those positions); none when that length is 0, as the JS returns null. -/
def rmseSq (arr1 arr2 : List ℚ) : Option ℚ :=
  let ds := (arr1.zip arr2).map (fun p => (p.1 - p.2) ^ 2)
  if ds.length = 0 then none else some (listSum ds / ds.length)

/-- The JS rmse: Math.sqrt applied to the radicand. -/
noncomputable def rmse (arr1 arr2 : List ℚ) : Option ℝ :=
  (rmseSq arr1 arr2).map (fun q => Real.sqrt (q : ℝ))

/-- JS avg: sum divided by length (empty list gives 0/0, which is NaN in
JS and 0 here; every proved use is on a nonempty list). -/
def avg (arr : List ℚ) : ℚ := listSum arr / arr.length

/-- Square of the JS stdev (the variance).  JS stdev applies Math.sqrt
on top; no claim below reads this field, and the square is kept so that
the statistics record stays computable. -/
def varianceOf (arr : List ℚ) : ℚ := avg (arr.map (fun v => (v - avg arr) ^ 2))

/-- Cycle statistics record built in the cycle branch of runCompareMulti
(the sd field stores the square of the JS sd, see varianceOf). -/
structure CycStats where
  count : ℕ
  avg : ℚ
  sd : ℚ
  min : ℚ
  max : ℚ
  cadence : ℚ
deriving DecidableEq

/-- The statistics object assigned to stats.ref and stats.cmp. -/
def statsOfCycles (cs : List Cyc) : CycStats :=
  { count := cs.length
    avg := avg (cs.map (fun c => c.dur))
    sd := varianceOf (cs.map (fun c => c.dur))
    min := jsMinOf (cs.map (fun c => c.dur))
    max := jsMaxOf (cs.map (fun c => c.dur))
    cadence := 60 / avg (cs.map (fun c => c.dur)) }

/-! ## runCompareMulti (App.jsx lines 1700-1800)

The callback reads the two saved series (refSamples, cmpSamples), the
requested channel list (Object.keys of the metrics toggles) and the
cycleNormalize flag.  It accumulates a chart dataset list, an RMSE map
keyed by channel and (in cycle mode) a statistics object; when the final
dataset list is empty it clears the stored comparison result and the
statistics, alerts, and returns without touching the stored RMSE map;
otherwise it stores all three.  The chart payloads are irrelevant to the
claims, so datasets are modelled by their count. -/

/-- The five angle channels of the app. -/
inductive Chan
  | kneeL
  | kneeR
  | hipL
  | hipR
  | trunk
deriving DecidableEq

/-- One recorded sample: a timestamp and a per-channel value-or-null. -/
structure Sample where
  t : ℚ
  vals : Chan → Option ℚ

/-- samples.map(s => s[key] ?? null): the channel column with nulls. -/
def chanCol (samples : List Sample) (key : Chan) : List (Option ℚ) :=
  samples.map (fun s => s.vals key)

/-- samples.map(s => s[key] ?? null).filter(v => v != null). -/
def chanColValid (samples : List Sample) (key : Chan) : List ℚ :=
  (chanCol samples key).filterMap id

/-- The normalized cycles computed for one channel of one series in the
cycle branch (prominence 5, minGapSec 0.30, N = 100).  Note that the
source passes the full timestamp list together with the null-filtered
value list. -/
def cyclesFor (tList : List ℚ) (samples : List Sample) (key : Chan) : List Cyc :=
  cyclesNormalize tList (chanColValid samples key)
    (findLocalMinima tList (chanColValid samples key) 5 (3 / 10)) 100

/-- Radicand of the per-channel RMSE computed by the time branch:
the candidate column is null-filled, resampled at the reference
timestamps, and both columns are null-filtered independently before the
positional rmse pairing. -/
def timeModeRmseSq (refT cmpT : List ℚ) (refY cmpYraw : List (Option ℚ)) : Option ℚ :=
  let cmpYseries := fillNaLinear cmpT cmpYraw
  let cmpY := refT.map (fun t => linInterp t cmpT (cmpYseries.map (fun v => v.getD 0)))
  rmseSq (refY.filterMap id) (cmpY.filterMap id)

/-- The per-channel RMSE of the time branch (Math.sqrt applied). -/
noncomputable def timeModeRmse (refT cmpT : List ℚ)
    (refY cmpYraw : List (Option ℚ)) : Option ℝ :=
  (timeModeRmseSq refT cmpT refY cmpYraw).map (fun q => Real.sqrt (q : ℝ))

/-- Mean phase waveform of a nonempty cycle list: entry i is the sum
over cycles of normV[i] / K (JS accumulates in the same order). -/
def meanWave (cs : List Cyc) (N : ℕ) : List ℚ :=
  (List.range N).map (fun i => listSum (cs.map (fun c => nthD c.normV i / cs.length)))

/-- Mutable state of the channel loop of runCompareMulti: dataset count,
RMSE entries in insertion order (radicands, see rmseSq), and the last
written cycle statistics for each role. -/
structure CmpState where
  datasets : ℕ
  rmseRes : List (Chan × Option ℚ)
  statsRef : Option CycStats
  statsCmp : Option CycStats
deriving DecidableEq

/-- One iteration of the time-mode channel loop. -/
def timeChannelStep (refT cmpT : List ℚ) (refSamples cmpSamples : List Sample)
    (st : CmpState) (key : Chan) : CmpState :=
  { st with
    datasets := st.datasets + 2
    rmseRes := st.rmseRes ++
      [(key, timeModeRmseSq refT cmpT (chanCol refSamples key) (chanCol cmpSamples key))] }

/-- One iteration of the cycle-mode channel loop. -/
def cycleChannelStep (refT cmpT : List ℚ) (refSamples cmpSamples : List Sample)
    (st : CmpState) (key : Chan) : CmpState :=
  if chanColValid refSamples key = [] ∨ chanColValid cmpSamples key = [] then st
  else
    let refC := cyclesFor refT refSamples key
    let cmpC := cyclesFor cmpT cmpSamples key
    if refC = [] ∨ cmpC = [] then st
    else
      let N := (refC.headD ⟨[], [], 0⟩).normT.length
      { datasets := st.datasets + 2
        rmseRes := st.rmseRes ++ [(key, rmseSq (meanWave refC N) (meanWave cmpC N))]
        statsRef := some (statsOfCycles refC)
        statsCmp := some (statsOfCycles cmpC) }

/-- A channel is passed over by the cycle branch exactly when one series
has no valid sample for it or one series yields no cycles. -/
def cycleSkip (refT cmpT : List ℚ) (refSamples cmpSamples : List Sample)
    (key : Chan) : Prop :=
  chanColValid refSamples key = [] ∨ chanColValid cmpSamples key = [] ∨
    cyclesFor refT refSamples key = [] ∨ cyclesFor cmpT cmpSamples key = []

instance (refT cmpT : List ℚ) (refSamples cmpSamples : List Sample) (key : Chan) :
    Decidable (cycleSkip refT cmpT refSamples cmpSamples key) := by
  unfold cycleSkip
  infer_instance

/-- Externally visible effect of one runCompareMulti call with both
series saved: failure clears the stored result and statistics (the RMSE
map is left untouched by the source on this path); success stores the
RMSE map, the datasets and the statistics. -/
inductive CompareEffect
  | failure
  | success (rmseRes : List (Chan × Option ℚ)) (datasets : ℕ)
      (statsRef statsCmp : Option CycStats)
deriving DecidableEq

/-- runCompareMulti, for the case where both series are saved (the
source returns immediately, with no effect, when either is null). -/
def runCompareMulti (refSamples cmpSamples : List Sample)
    (metricsList : List Chan) (cycleNormalize : Bool) : CompareEffect :=
  let refT := refSamples.map (fun s => s.t)
  let cmpT := cmpSamples.map (fun s => s.t)
  let fin :=
    if cycleNormalize then
      metricsList.foldl (cycleChannelStep refT cmpT refSamples cmpSamples)
        ⟨0, [], none, none⟩
    else
      metricsList.foldl (timeChannelStep refT cmpT refSamples cmpSamples)
        ⟨0, [], none, none⟩
  if fin.datasets = 0 then CompareEffect.failure
  else CompareEffect.success fin.rmseRes fin.datasets fin.statsRef fin.statsCmp

/-! ## Spec-modelled RMSE pairing for the refinement claim about the
time branch.  The code ships its own pairing (see timeModeRmseSq); the
specification instead asks for pairs taken at index positions where both
the reference value and the resampled candidate value are non-null. -/

/-- Modelled from the spec: the value pairs at index positions where
both entries are non-null. -/
def specPairs (a b : List (Option ℚ)) : List (ℚ × ℚ) :=
  (a.zip b).filterMap (fun p =>
    match p with
    | (some u, some v) => some (u, v)
    | _ => none)

/-- Modelled from the spec: sqrt-radicand of mean((a_i - b_i)^2) over
index pairs where both values are non-null; none when there are no such
pairs. -/
def specRmseSq (a b : List (Option ℚ)) : Option ℚ :=
  let ps := specPairs a b
  if ps.length = 0 then none
  else some (listSum (ps.map (fun p => (p.1 - p.2) ^ 2)) / ps.length)

/-- Modelled from the spec: the time-mode per-channel RMSE radicand with
the spec pairing, the resampled candidate being produced exactly as the
code produces it. -/
def specTimeModeRmseSq (refT cmpT : List ℚ) (refY cmpYraw : List (Option ℚ)) : Option ℚ :=
  specRmseSq refY
    (refT.map (fun t => linInterp t cmpT ((fillNaLinear cmpT cmpYraw).map (fun v => v.getD 0))))

/-- Spec-modelled time-mode RMSE (Math.sqrt applied). -/
noncomputable def specTimeModeRmse (refT cmpT : List ℚ)
    (refY cmpYraw : List (Option ℚ)) : Option ℝ :=
  (specTimeModeRmseSq refT cmpT refY cmpYraw).map (fun q => Real.sqrt (q : ℝ))

/-! ## Access lemmas -/

theorem nthD_eq_getElem (l : List ℚ) (i : ℕ) (h : i < l.length) :
    nthD l i = l[i] := by
  simp [nthD, List.getD_eq_getElem?_getD, List.getElem?_eq_getElem h]

theorem getD_range_map (f : ℕ → Option ℚ) (n k : ℕ) :
    ((List.range n).map f).getD k none = if k < n then f k else none := by
  by_cases h : k < n
  · simp [List.getD_eq_getElem?_getD, List.getElem?_range h, h]
  · have hlen : ((List.range n).map f).length ≤ k := by
      simpa using Nat.not_lt.1 h
    simp [List.getD_eq_getElem?_getD, List.getElem?_eq_none hlen, h]

/-! ## Lemmas on the linInterp scan -/

theorem scanAux_spec (x : ℚ) (xp : List ℚ) :
    ∀ i, i ≤ xp.length →
      i ≤ scanAux x (xp.drop i) i ∧
      scanAux x (xp.drop i) i ≤ xp.length ∧
      (scanAux x (xp.drop i) i = i ∨ nthD xp (scanAux x (xp.drop i) i - 1) < x) ∧
      (scanAux x (xp.drop i) i < xp.length → ¬ nthD xp (scanAux x (xp.drop i) i) < x) ∧
      (∀ m, i ≤ m → ¬ nthD xp m < x → scanAux x (xp.drop i) i ≤ m) := by
  have main : ∀ n i, xp.length - i ≤ n → i ≤ xp.length →
      i ≤ scanAux x (xp.drop i) i ∧
      scanAux x (xp.drop i) i ≤ xp.length ∧
      (scanAux x (xp.drop i) i = i ∨ nthD xp (scanAux x (xp.drop i) i - 1) < x) ∧
      (scanAux x (xp.drop i) i < xp.length → ¬ nthD xp (scanAux x (xp.drop i) i) < x) ∧
      (∀ m, i ≤ m → ¬ nthD xp m < x → scanAux x (xp.drop i) i ≤ m) := by
    intro n
    induction n with
    | zero =>
      intro i hle hi
      have hi' : i = xp.length := by omega
      subst hi'
      simp only [List.drop_length, scanAux]
      refine ⟨le_rfl, le_rfl, Or.inl trivial, by omega, ?_⟩
      intro m hm _
      exact hm
    | succ n ih =>
      intro i hle hi
      by_cases hlt : i < xp.length
      · rw [List.drop_eq_getElem_cons hlt]
        simp only [scanAux]
        by_cases hv : xp[i] < x
        · rw [if_pos hv]
          obtain ⟨h1, h2, h3, h4, h5⟩ := ih (i + 1) (by omega) (by omega)
          refine ⟨by omega, h2, ?_, h4, ?_⟩
          · rcases h3 with h3 | h3
            · right
              rw [h3]
              simpa [nthD_eq_getElem xp i hlt] using hv
            · exact Or.inr h3
          · intro m hm hmx
            rcases Nat.eq_or_lt_of_le hm with hm' | hm'
            · exact absurd (by simpa [nthD_eq_getElem xp i hlt, ← hm'] using hv) hmx
            · exact h5 m hm' hmx
        · rw [if_neg hv]
          refine ⟨le_rfl, by omega, Or.inl rfl, ?_, ?_⟩
          · intro _
            simpa [nthD_eq_getElem xp i hlt] using hv
          · intro m hm _
            exact hm
      · have hi' : i = xp.length := by omega
        subst hi'
        simp only [List.drop_length, scanAux]
        refine ⟨le_rfl, le_rfl, Or.inl trivial, by omega, ?_⟩
        intro m hm _
        exact hm
  intro i hi
  exact main (xp.length - i) i le_rfl hi

/-- Claim C10 theorem.  For every query x, linInterp applied to an empty
times array or an empty values array returns null (modelled: none)
rather than reading out of bounds; the embedding is a total function. -/
theorem linInterp_empty_none :
    (∀ (x : ℚ) (yp : List ℚ), linInterp x [] yp = none) ∧
      (∀ (x : ℚ) (xp : List ℚ), linInterp x xp [] = none) := by
  constructor
  · intro x yp
    simp [linInterp]
  · intro x xp
    simp [linInterp]

/-- Claim C8 theorem.  For nonempty times and values, a query at or
below times[0] returns exactly values[0], and a query at or above
times[last] (and not caught by the first clamp) returns exactly
values[last]: clamping, never extrapolation. -/
theorem linInterp_clamps (x : ℚ) (xp yp : List ℚ)
    (hx : xp ≠ []) (hy : yp ≠ []) :
    (x ≤ nthD xp 0 → linInterp x xp yp = some (nthD yp 0)) ∧
      (nthD xp 0 < x → nthD xp (xp.length - 1) ≤ x →
        linInterp x xp yp = some (nthD yp (yp.length - 1))) := by
  have hxl : ¬ (xp.length = 0 ∨ yp.length = 0) := by
    simp only [List.length_eq_zero]
    exact fun h => h.elim hx hy
  constructor
  · intro hle
    simp only [linInterp, if_neg hxl, if_pos hle]
  · intro hgt hlast
    rw [linInterp, if_neg hxl, if_neg (by simpa using not_le.2 hgt), if_pos hlast]

/-- Claim C8 witness: concrete clamping on both sides. -/
theorem linInterp_clamps_witness :
    linInterp 0 [1, 2] [10, 20] = some 10 ∧ linInterp 3 [1, 2] [10, 20] = some 20 := by
  have h := linInterp_clamps 0 [1, 2] [10, 20] (by simp) (by simp)
  have h' := linInterp_clamps 3 [1, 2] [10, 20] (by simp) (by simp)
  refine ⟨?_, ?_⟩
  · simpa [nthD] using h.1 (by norm_num [nthD])
  · simpa [nthD] using h'.2 (by norm_num [nthD]) (by norm_num [nthD])

/-- Claim C3 theorem.  When linInterp reaches its interior interpolation
branch, the bracketing interval it finds always satisfies x0 < x and
x ≤ x1, so the bracket never has zero width; consequently the claim that
a zero-width bracket yields the left value holds (vacuously: its
antecedent contradicts the first two conjuncts), and no division by zero
is ever exercised by the interpolation formula. -/
theorem linInterp_bracket (x : ℚ) (xp yp : List ℚ)
    (hxp : xp ≠ []) (hhead : nthD xp 0 < x) (hlast : x < nthD xp (xp.length - 1)) :
    nthD xp (scanIdx xp x - 1) < x ∧ x ≤ nthD xp (scanIdx xp x) ∧
      (nthD xp (scanIdx xp x - 1) = nthD xp (scanIdx xp x) →
        linInterp x xp yp = some (nthD yp (scanIdx xp x - 1))) := by
  have hlen : 1 ≤ xp.length := by
    cases xp with
    | nil => exact absurd rfl hxp
    | cons a l => simp
  have hlen2 : 2 ≤ xp.length := by
    by_contra h
    have h1 : xp.length = 1 := by omega
    have : nthD xp 0 < nthD xp (xp.length - 1) := lt_trans hhead hlast
    rw [h1] at this
    simp at this
  obtain ⟨h1, h2, h3, h4, h5⟩ := scanAux_spec x xp 1 hlen
  have hr : scanIdx xp x = scanAux x (xp.drop 1) 1 := rfl
  have hstop : scanIdx xp x ≤ xp.length - 1 := by
    rw [hr]
    exact h5 (xp.length - 1) (by omega) (not_lt.2 (le_of_lt hlast))
  have hrlt : scanIdx xp x < xp.length := by omega
  have hx0 : nthD xp (scanIdx xp x - 1) < x := by
    rw [hr]
    rcases h3 with h3 | h3
    · rw [h3]
      simpa using hhead
    · exact h3
  have hx1 : x ≤ nthD xp (scanIdx xp x) := by
    have := h4 (by rw [← hr]; exact hrlt)
    rw [← hr] at this
    exact not_lt.1 this
  refine ⟨hx0, hx1, ?_⟩
  intro heq
  exact absurd (heq ▸ hx0) (not_lt.2 hx1)

/-- Claim C3 witness: the hypotheses of the bracket theorem are
satisfiable (an interior query on a 3-point grid), and the found bracket
has positive width there. -/
theorem linInterp_bracket_witness :
    nthD [0, 1, 2] (scanIdx [0, 1, 2] (1 / 2) - 1) < (1 / 2 : ℚ) ∧
      (1 / 2 : ℚ) ≤ nthD [0, 1, 2] (scanIdx [0, 1, 2] (1 / 2)) :=
  ⟨(linInterp_bracket (1 / 2) [0, 1, 2] [] (by simp) (by norm_num [nthD])
      (by norm_num [nthD])).1,
    (linInterp_bracket (1 / 2) [0, 1, 2] [] (by simp) (by norm_num [nthD])
      (by norm_num [nthD])).2.1⟩

/-! ## Lemmas on the greedy minima selection -/

theorem minimaCandidates_bounds (y : List ℚ) (i : ℕ) (h : i ∈ minimaCandidates y) :
    1 ≤ i ∧ i + 1 < y.length := by
  have h' := List.of_mem_filter h
  have h'' := of_decide_eq_true h'
  exact ⟨h''.1, h''.2.1⟩

theorem minimaCandidates_pairwise (y : List ℚ) :
    List.Pairwise (· < ·) (minimaCandidates y) :=
  (List.pairwise_lt_range y.length).filter _

/-- Invariant of the greedy keep loop of findLocalMinima. -/
theorem keepFold_inv (t y : List ℚ) (p g : ℚ) :
    ∀ (l : List ℕ) (acc : List ℕ × ℚ),
      List.Chain' (fun i j => g ≤ nthD t j - nthD t i) acc.1 →
      (∀ j, acc.1.getLast? = some j → acc.2 = nthD t j) →
      List.Chain' (· < ·) acc.1 →
      (∀ j ∈ acc.1, ∀ i ∈ l, j < i) →
      List.Pairwise (· < ·) l →
      List.Chain' (fun i j => g ≤ nthD t j - nthD t i)
          (l.foldl (keepStep t y p g) acc).1 ∧
        List.Chain' (· < ·) (l.foldl (keepStep t y p g) acc).1 ∧
        ∀ i ∈ (l.foldl (keepStep t y p g) acc).1,
          i ∈ acc.1 ∨ (i ∈ l ∧ p ≤ prominenceAt y i) := by
  intro l
  induction l with
  | nil =>
    intro acc hgap _ hlt _ _
    exact ⟨hgap, hlt, fun i hi => Or.inl hi⟩
  | cons a l ih =>
    intro acc hgap hlast hlt hsep hpw
    simp only [List.foldl_cons]
    by_cases hc : p ≤ prominenceAt y a ∧ g ≤ nthD t a - acc.2
    · have hstep : keepStep t y p g acc a = (acc.1 ++ [a], nthD t a) := by
        simp [keepStep, hc]
      rw [hstep]
      have hgap' : List.Chain' (fun i j => g ≤ nthD t j - nthD t i) (acc.1 ++ [a]) := by
        rw [List.chain'_append]
        refine ⟨hgap, List.chain'_singleton a, ?_⟩
        intro j hj b hb
        simp only [List.head?_cons, Option.mem_def, Option.some.injEq] at hb
        subst hb
        have := hlast j hj
        rw [← this]
        exact hc.2
      have hlt' : List.Chain' (· < ·) (acc.1 ++ [a]) := by
        rw [List.chain'_append]
        refine ⟨hlt, List.chain'_singleton a, ?_⟩
        intro j hj b hb
        simp only [List.head?_cons, Option.mem_def, Option.some.injEq] at hb
        subst hb
        exact hsep j (List.mem_of_mem_getLast? hj) a (List.mem_cons_self a l)
      have hlast' : ∀ j, (acc.1 ++ [a]).getLast? = some j → nthD t a = nthD t j := by
        intro j hj
        rw [List.getLast?_append_cons] at hj
        simp only [List.getLast?_singleton, Option.some.injEq] at hj
        subst hj
        rfl
      have hsep' : ∀ j ∈ acc.1 ++ [a], ∀ i ∈ l, j < i := by
        intro j hj i hi
        rcases List.mem_append.1 hj with hj | hj
        · exact hsep j hj i (List.mem_cons_of_mem a hi)
        · simp only [List.mem_singleton] at hj
          subst hj
          exact (List.pairwise_cons.1 hpw).1 i hi
      obtain ⟨r1, r2, r3⟩ := ih (acc.1 ++ [a], nthD t a) hgap' hlast' hlt' hsep'
        (List.Pairwise.of_cons hpw)
      refine ⟨r1, r2, ?_⟩
      intro i hi
      rcases r3 i hi with hi' | hi'
      · rcases List.mem_append.1 hi' with hi'' | hi''
        · exact Or.inl hi''
        · simp only [List.mem_singleton] at hi''
          subst hi''
          exact Or.inr ⟨List.mem_cons_self i l, hc.1⟩
      · exact Or.inr ⟨List.mem_cons_of_mem a hi'.1, hi'.2⟩
    · have hstep : keepStep t y p g acc a = acc := by
        simp [keepStep, hc]
      rw [hstep]
      obtain ⟨r1, r2, r3⟩ := ih acc hgap hlast hlt
        (fun j hj i hi => hsep j hj i (List.mem_cons_of_mem a hi))
        (List.Pairwise.of_cons hpw)
      refine ⟨r1, r2, ?_⟩
      intro i hi
      rcases r3 i hi with hi' | hi'
      · exact Or.inl hi'
      · exact Or.inr ⟨List.mem_cons_of_mem a hi'.1, hi'.2⟩

/-- Claim C2 theorem.  For non-decreasing times and a nonnegative gap
threshold, the kept-minima list never contains two kept minima —
consecutive or not — whose times are closer than minGapSec (so a later
minimum within minGapSec of a kept one is dropped, however prominent),
and every kept index is a raw local-minimum candidate whose prominence
passes the threshold — the greedy selection keeps a candidate only under
both conditions, measured against the previously kept candidate. -/
theorem findLocalMinima_gap (t y : List ℚ) (p g : ℚ)
    (hmono : List.Chain' (· ≤ ·) t) (hg : 0 ≤ g) :
    List.Chain' (fun i j => g ≤ nthD t j - nthD t i) (findLocalMinima t y p g) ∧
      List.Pairwise (fun i j => g ≤ nthD t j - nthD t i) (findLocalMinima t y p g) ∧
      ∀ i ∈ findLocalMinima t y p g,
        p ≤ prominenceAt y i ∧ i ∈ minimaCandidates y := by
  obtain ⟨r1, _, r3⟩ := keepFold_inv t y p g (minimaCandidates y) ([], -(10 ^ 9 : ℚ))
    (List.chain'_nil) (by intro j hj; simp at hj) (List.chain'_nil)
    (by intro j hj; simp at hj) (minimaCandidates_pairwise y)
  have htrans : IsTrans ℕ (fun i j => g ≤ nthD t j - nthD t i) := by
    refine ⟨?_⟩
    intro a b c h1 h2
    simp only at h1 h2 ⊢
    linarith
  refine ⟨r1, List.chain'_iff_pairwise.1 r1, ?_⟩
  intro i hi
  rcases r3 i hi with hi' | hi'
  · simp at hi'
  · exact ⟨hi'.2, hi'.1⟩

/-- Claim C2 witness: a concrete series with two valleys 3 seconds apart
satisfies the hypotheses, and the kept list satisfies the gap chain. -/
theorem findLocalMinima_gap_witness :
    List.Chain'
      (fun i j => (3 / 10 : ℚ) ≤ nthD [0, 1, 2, 3, 4, 5, 6] j - nthD [0, 1, 2, 3, 4, 5, 6] i)
      (findLocalMinima [0, 1, 2, 3, 4, 5, 6] [100, 0, 100, 100, 0, 100, 100] 5 (3 / 10)) :=
  (findLocalMinima_gap [0, 1, 2, 3, 4, 5, 6] [100, 0, 100, 100, 0, 100, 100] 5 (3 / 10)
    (by norm_num [List.chain'_cons]) (by norm_num)).1

/-! ## Lemmas for positive cycle durations -/

theorem chain'_zip_tail {α : Type} (R : α → α → Prop) :
    ∀ (l : List α), List.Chain' R l → ∀ pq ∈ l.zip l.tail, R pq.1 pq.2 := by
  intro l
  induction l with
  | nil => intro _ pq hpq; simp at hpq
  | cons a l ih =>
    intro hch pq hpq
    cases l with
    | nil => simp at hpq
    | cons b l' =>
      simp only [List.tail_cons, List.zip_cons_cons] at hpq
      rcases List.mem_cons.1 hpq with hpq' | hpq'
      · subst hpq'
        exact (List.chain'_cons.1 hch).1
      · exact ih (List.chain'_cons.1 hch).2 pq hpq'

theorem nthD_strictMono (l : List ℚ) (hmono : List.Chain' (· < ·) l)
    (a b : ℕ) (hab : a < b) (hb : b < l.length) : nthD l a < nthD l b := by
  have hpw : List.Pairwise (· < ·) l := List.chain'_iff_pairwise.1 hmono
  have := List.pairwise_iff_getElem.1 hpw a b (lt_trans hab hb) hb hab
  rw [nthD_eq_getElem l a (lt_trans hab hb), nthD_eq_getElem l b hb]
  exact this

/-- Claim C6 theorem.  For strictly increasing sample times (and a value
list no longer than the time list, as produced by the null filtering in
the caller), every cycle produced by cyclesNormalize from the detected
minima has strictly positive duration. -/
theorem cyclesNormalize_dur_pos (times values : List ℚ) (p g : ℚ) (N : ℕ)
    (hmono : List.Chain' (· < ·) times) (hlen : values.length ≤ times.length) :
    ∀ c ∈ cyclesNormalize times values (findLocalMinima times values p g) N,
      0 < c.dur := by
  intro c hc
  obtain ⟨pq, hpq, hc'⟩ := List.mem_map.1 hc
  obtain ⟨_, _, r3⟩ := keepFold_inv times values p g (minimaCandidates values)
    ([], -(10 ^ 9 : ℚ)) (List.chain'_nil) (by intro j hj; simp at hj)
    (List.chain'_nil) (by intro j hj; simp at hj) (minimaCandidates_pairwise values)
  have hchain : List.Chain' (· < ·) (findLocalMinima times values p g) :=
    (keepFold_inv times values p g (minimaCandidates values) ([], -(10 ^ 9 : ℚ))
      (List.chain'_nil) (by intro j hj; simp at hj) (List.chain'_nil)
      (by intro j hj; simp at hj) (minimaCandidates_pairwise values)).2.1
  have hlt : pq.1 < pq.2 := by
    have := chain'_zip_tail (· < ·) (findLocalMinima times values p g) hchain
    exact this pq hpq
  have hq_mem : pq.2 ∈ findLocalMinima times values p g := by
    have h2 := (List.of_mem_zip hpq).2
    exact List.mem_of_mem_tail h2
  have hq_cand : pq.2 ∈ minimaCandidates values := by
    rcases r3 pq.2 hq_mem with h | h
    · simp at h
    · exact h.1
  have hq_lt : pq.2 < times.length := by
    have := (minimaCandidates_bounds values pq.2 hq_cand).2
    omega
  have hdur : c.dur = nthD times pq.2 - nthD times pq.1 := by
    rw [← hc']
  rw [hdur]
  have := nthD_strictMono times hmono pq.1 pq.2 hlt hq_lt
  linarith

/-- Claim C6 witness: a concrete strictly increasing series with two
detected valleys; the single produced cycle has positive duration. -/
theorem cyclesNormalize_dur_pos_witness :
    0 < ((cyclesNormalize [0, 1, 2, 3, 4, 5, 6] [100, 0, 100, 100, 0, 100, 100]
      (findLocalMinima [0, 1, 2, 3, 4, 5, 6] [100, 0, 100, 100, 0, 100, 100] 5 (3 / 10))
      2).headD ⟨[], [], 0⟩).dur := by
  have h := cyclesNormalize_dur_pos [0, 1, 2, 3, 4, 5, 6]
    [100, 0, 100, 100, 0, 100, 100] 5 (3 / 10) 2 (by norm_num [List.chain'_cons])
    (by norm_num)
  have e : cyclesNormalize [0, 1, 2, 3, 4, 5, 6] [100, 0, 100, 100, 0, 100, 100]
      (findLocalMinima [0, 1, 2, 3, 4, 5, 6] [100, 0, 100, 100, 0, 100, 100] 5 (3 / 10))
      2 = [⟨[0, 1], [0, 0], 3⟩] := by
    norm_num [cyclesNormalize, findLocalMinima, minimaCandidates, keepStep, prominenceAt,
      sliceOf, jsMaxOf, linInterp, scanIdx, scanAux, nthD, List.range_succ]
  refine h _ ?_
  rw [e]
  simp

/-! ## Cadence -/

/-- Claim C9 theorem.  For a nonempty list of detected cycles, the
reported cadence is 60 divided by the mean of the raw cycle durations;
in particular a mean duration of 0.8 seconds gives cadence exactly 75. -/
theorem statsOfCycles_cadence (cs : List Cyc) (h : cs ≠ []) :
    (statsOfCycles cs).cadence = 60 / avg (cs.map (fun c => c.dur)) ∧
      (avg (cs.map (fun c => c.dur)) = 4 / 5 → (statsOfCycles cs).cadence = 75) := by
  refine ⟨rfl, ?_⟩
  intro he
  show 60 / avg (cs.map (fun c => c.dur)) = 75
  rw [he]
  norm_num

/-- Claim C9 witness: one cycle of duration 0.8 seconds has cadence 75. -/
theorem statsOfCycles_cadence_witness :
    (statsOfCycles [⟨[], [], 4 / 5⟩]).cadence = 75 :=
  (statsOfCycles_cadence [⟨[], [], 4 / 5⟩] (by simp)).2 (by norm_num [avg, listSum])

/-! ## Lemmas on fillNaLinear building blocks -/

theorem getD_none_of_len_le (l : List (Option ℚ)) (k : ℕ) (h : l.length ≤ k) :
    l.getD k none = none := by
  simp [List.getD_eq_getElem?_getD, List.getElem?_eq_none h]

theorem onth_eq_getElem (l : List (Option ℚ)) (i : ℕ) (h : i < l.length) :
    l.getD i none = l[i] := by
  simp [List.getD_eq_getElem?_getD, List.getElem?_eq_getElem h]

theorem firstSomeIdx_below_none :
    ∀ (l : List (Option ℚ)) (j : ℕ), j < firstSomeIdx l → l.getD j none = none := by
  intro l
  induction l with
  | nil => intro j hj; simp [firstSomeIdx] at hj
  | cons v rest ih =>
    intro j hj
    by_cases hv : v.isSome
    · simp [firstSomeIdx, hv] at hj
    · rw [firstSomeIdx, if_neg hv] at hj
      cases j with
      | zero =>
        simpa using Option.not_isSome_iff_eq_none.1 hv
      | succ j' =>
        rw [List.getD_cons_succ]
        exact ih j' (by omega)

theorem firstSomeIdx_isSome (l : List (Option ℚ)) (h : firstSomeIdx l < l.length) :
    (l.getD (firstSomeIdx l) none).isSome := by
  induction l with
  | nil => simp [firstSomeIdx] at h
  | cons v rest ih =>
    by_cases hv : v.isSome
    · simpa [firstSomeIdx, hv] using hv
    · rw [firstSomeIdx, if_neg hv] at h ⊢
      rw [List.getD_cons_succ]
      exact ih (by simpa using h)

theorem firstSomeIdx_le_length : ∀ (l : List (Option ℚ)), firstSomeIdx l ≤ l.length := by
  intro l
  induction l with
  | nil => simp [firstSomeIdx]
  | cons v rest ih =>
    by_cases hv : v.isSome
    · simp [firstSomeIdx, hv]
    · rw [firstSomeIdx, if_neg hv]
      simpa using ih

theorem firstSomeIdx_le_of_some :
    ∀ (l : List (Option ℚ)) (m : ℕ) (v : ℚ), l.getD m none = some v →
      firstSomeIdx l ≤ m := by
  intro l
  induction l with
  | nil => intro m v hm; simp at hm
  | cons w rest ih =>
    intro m v hm
    by_cases hv : w.isSome
    · simp [firstSomeIdx, hv]
    · rw [firstSomeIdx, if_neg hv]
      cases m with
      | zero =>
        rw [List.getD_cons_zero] at hm
        exact absurd (show w.isSome by rw [hm]; rfl) hv
      | succ m' =>
        rw [List.getD_cons_succ] at hm
        have := ih m' v hm
        omega

theorem firstSomeIdx_eq_of_char (l : List (Option ℚ)) (m : ℕ) (v : ℚ)
    (hm : l.getD m none = some v) (hbelow : ∀ j, j < m → l.getD j none = none) :
    firstSomeIdx l = m := by
  have h1 : firstSomeIdx l ≤ m := firstSomeIdx_le_of_some l m v hm
  rcases Nat.eq_or_lt_of_le h1 with h | h
  · exact h
  · have hlen : m < l.length := by
      by_contra hc
      rw [getD_none_of_len_le l m (by omega)] at hm
      exact Option.noConfusion hm
    have := firstSomeIdx_isSome l (by omega)
    rw [hbelow (firstSomeIdx l) h] at this
    simp at this

theorem lastSomeIdx_none_all_none :
    ∀ (l : List (Option ℚ)), lastSomeIdx l = none →
      ∀ m, m < l.length → l.getD m none = none := by
  intro l
  induction l with
  | nil => intro _ m hm; simp at hm
  | cons v rest ih =>
    intro hnone m hm
    rw [lastSomeIdx] at hnone
    cases hrest : lastSomeIdx rest with
    | some j' => rw [hrest] at hnone; exact Option.noConfusion hnone
    | none =>
      rw [hrest] at hnone
      by_cases hv : v.isSome
      · rw [if_pos hv] at hnone; exact Option.noConfusion hnone
      · cases m with
        | zero => simpa using Option.not_isSome_iff_eq_none.1 hv
        | succ m' =>
          rw [List.getD_cons_succ]
          exact ih hrest m' (by simpa using hm)

theorem lastSomeIdx_spec :
    ∀ (l : List (Option ℚ)) (j : ℕ), lastSomeIdx l = some j →
      j < l.length ∧ (l.getD j none).isSome ∧
        ∀ m, j < m → m < l.length → l.getD m none = none := by
  intro l
  induction l with
  | nil => intro j hj; simp [lastSomeIdx] at hj
  | cons v rest ih =>
    intro j hj
    rw [lastSomeIdx] at hj
    cases hrest : lastSomeIdx rest with
    | some j' =>
      rw [hrest] at hj
      simp only [Option.some.injEq] at hj
      subst hj
      obtain ⟨h1, h2, h3⟩ := ih j' hrest
      refine ⟨by simpa using h1, by simpa using h2, ?_⟩
      intro m hm hmlen
      cases m with
      | zero => omega
      | succ m' =>
        rw [List.getD_cons_succ]
        exact h3 m' (by omega) (by simpa using hmlen)
    | none =>
      rw [hrest] at hj
      by_cases hv : v.isSome
      · rw [if_pos hv] at hj
        simp only [Option.some.injEq] at hj
        subst hj
        refine ⟨by simp, by simpa using hv, ?_⟩
        intro m hm hmlen
        cases m with
        | zero => omega
        | succ m' =>
          rw [List.getD_cons_succ]
          exact lastSomeIdx_none_all_none rest hrest m' (by simpa using hmlen)
      · rw [if_neg hv] at hj
        exact Option.noConfusion hj

theorem lastSomeIdx_some_of_getD :
    ∀ (l : List (Option ℚ)) (m : ℕ) (v : ℚ), l.getD m none = some v → m < l.length →
      ∃ j, lastSomeIdx l = some j ∧ m ≤ j := by
  intro l
  induction l with
  | nil => intro m v _ hm; simp at hm
  | cons w rest ih =>
    intro m v hv hm
    rw [lastSomeIdx]
    cases m with
    | zero =>
      cases hrest : lastSomeIdx rest with
      | some j' => exact ⟨j' + 1, rfl, by omega⟩
      | none =>
        rw [List.getD_cons_zero] at hv
        rw [if_pos (show w.isSome by rw [hv]; rfl)]
        exact ⟨0, rfl, le_rfl⟩
    | succ m' =>
      rw [List.getD_cons_succ] at hv
      obtain ⟨j', hj', hle⟩ := ih m' v hv (by simpa using hm)
      rw [hj']
      exact ⟨j' + 1, rfl, by omega⟩

theorem lastSomeIdx_eq_of_char (l : List (Option ℚ)) (j : ℕ) (v : ℚ)
    (hj : l.getD j none = some v) (hlen : j < l.length)
    (habove : ∀ m, j < m → m < l.length → l.getD m none = none) :
    lastSomeIdx l = some j := by
  obtain ⟨j2, hj2, hle⟩ := lastSomeIdx_some_of_getD l j v hj hlen
  rcases Nat.eq_or_lt_of_le hle with h | h
  · rw [← h] at hj2
    exact hj2
  · obtain ⟨h1, h2, _⟩ := lastSomeIdx_spec l j2 hj2
    rw [habove j2 h h1] at h2
    simp at h2

/-! ## Pointwise description of the edge fills -/

theorem fillLeading_length (y : List (Option ℚ)) : (fillLeading y).length = y.length := by
  rw [fillLeading]
  split
  · simp
  · rfl

theorem fillLeading_getD_ge (y : List (Option ℚ)) (k : ℕ) (hk : firstSomeIdx y ≤ k) :
    (fillLeading y).getD k none = y.getD k none := by
  rw [fillLeading]
  split
  · rw [getD_range_map]
    by_cases hlen : k < y.length
    · rw [if_pos hlen, if_neg (by omega)]
    · rw [if_neg hlen, getD_none_of_len_le y k (by omega)]
  · rfl

theorem fillLeading_getD_lt (y : List (Option ℚ)) (k : ℕ)
    (h0 : 0 < firstSomeIdx y) (hlen : firstSomeIdx y < y.length)
    (hk : k < firstSomeIdx y) :
    (fillLeading y).getD k none = y.getD (firstSomeIdx y) none := by
  rw [fillLeading, if_pos ⟨h0, hlen⟩, getD_range_map, if_pos (by omega), if_pos hk]

theorem fillTrailing_eq_of_none (y : List (Option ℚ)) (h : lastSomeIdx y = none) :
    fillTrailing y = y := by
  rw [fillTrailing, h]

theorem fillTrailing_eq_of_some (y : List (Option ℚ)) (j : ℕ)
    (h : lastSomeIdx y = some j) :
    fillTrailing y =
      if j + 1 < y.length then
        (List.range y.length).map (fun k => if j < k then y.getD j none else y.getD k none)
      else y := by
  rw [fillTrailing, h]

theorem fillTrailing_length (y : List (Option ℚ)) : (fillTrailing y).length = y.length := by
  cases hls : lastSomeIdx y with
  | none => rw [fillTrailing_eq_of_none y hls]
  | some j =>
    rw [fillTrailing_eq_of_some y j hls]
    split
    · simp
    · rfl

theorem fillTrailing_getD_le (y : List (Option ℚ)) (j k : ℕ)
    (hls : lastSomeIdx y = some j) (hk : k ≤ j) :
    (fillTrailing y).getD k none = y.getD k none := by
  rw [fillTrailing_eq_of_some y j hls]
  split
  · rw [getD_range_map]
    have hjlen : j < y.length := (lastSomeIdx_spec y j hls).1
    rw [if_pos (by omega), if_neg (by omega)]
  · rfl

theorem fillTrailing_getD_gt (y : List (Option ℚ)) (j k : ℕ)
    (hls : lastSomeIdx y = some j) (hj : j + 1 < y.length)
    (hk1 : j < k) (hk2 : k < y.length) :
    (fillTrailing y).getD k none = y.getD j none := by
  rw [fillTrailing_eq_of_some y j hls, if_pos hj, getD_range_map, if_pos hk2, if_pos hk1]

/-! ## Lemmas on the interior pass -/

theorem lt_length_of_getD_some (l : List (Option ℚ)) (k : ℕ) (v : ℚ)
    (h : l.getD k none = some v) : k < l.length := by
  by_contra hc
  rw [getD_none_of_len_le l k (by omega)] at h
  exact Option.noConfusion h

theorem getD_drop (l : List (Option ℚ)) (n m : ℕ) :
    (l.drop n).getD m none = l.getD (n + m) none := by
  simp [List.getD_eq_getElem?_getD, List.getElem?_drop]

theorem writeRun_length (xp : List ℚ) (y : List (Option ℚ)) (a b : ℕ) :
    (writeRun xp y a b).length = y.length := by
  rw [writeRun]
  simp

theorem writeRun_getD_in (xp : List ℚ) (y : List (Option ℚ)) (a b k : ℕ)
    (hk : k < y.length) (h1 : a ≤ k) (h2 : k < b) :
    (writeRun xp y a b).getD k none =
      some (jval y (a - 1) + (jval y b - jval y (a - 1)) *
        (nthD xp k - nthD xp (a - 1)) / (nthD xp b - nthD xp (a - 1))) := by
  rw [writeRun, getD_range_map, if_pos hk, if_pos ⟨h1, h2⟩]

theorem writeRun_getD_out (xp : List ℚ) (y : List (Option ℚ)) (a b k : ℕ)
    (hk : ¬ (a ≤ k ∧ k < b)) :
    (writeRun xp y a b).getD k none = y.getD k none := by
  rw [writeRun, getD_range_map]
  by_cases hlen : k < y.length
  · rw [if_pos hlen, if_neg hk]
  · rw [if_neg hlen, getD_none_of_len_le y k (by omega)]

theorem fillInterior_length (xp : List ℚ) :
    ∀ (y : List (Option ℚ)) (a : ℕ), (fillInterior xp y a).length = y.length := by
  intro y a
  induction y, a using fillInterior.induct xp with
  | case1 y a h hs ih =>
    rw [fillInterior, dif_pos h, if_pos hs]
    exact ih
  | case2 y a h hs b ih =>
    rw [fillInterior, dif_pos h, if_neg hs]
    exact ih.trans (writeRun_length xp y a b)
  | case3 y a h =>
    rw [fillInterior, dif_neg h]

theorem fillInterior_getD_lt (xp : List ℚ) :
    ∀ (y : List (Option ℚ)) (a : ℕ), ∀ k, k < a →
      (fillInterior xp y a).getD k none = y.getD k none := by
  intro y a
  induction y, a using fillInterior.induct xp with
  | case1 y a h hs ih =>
    intro k hk
    rw [fillInterior, dif_pos h, if_pos hs]
    exact ih k (by omega)
  | case2 y a h hs b ih =>
    intro k hk
    rw [fillInterior, dif_pos h, if_neg hs]
    have hb : b = a + 1 + firstSomeIdx (y.drop (a + 1)) := rfl
    exact (ih k (by omega)).trans (writeRun_getD_out xp y a b k (by omega))
  | case3 y a h =>
    intro k _
    rw [fillInterior, dif_neg h]

theorem fillInterior_getD_some (xp : List ℚ) :
    ∀ (y : List (Option ℚ)) (a : ℕ), ∀ k v, y.getD k none = some v →
      (fillInterior xp y a).getD k none = some v := by
  intro y a
  induction y, a using fillInterior.induct xp with
  | case1 y a h hs ih =>
    intro k v hk
    rw [fillInterior, dif_pos h, if_pos hs]
    exact ih k v hk
  | case2 y a h hs b ih =>
    intro k v hk
    rw [fillInterior, dif_pos h, if_neg hs]
    have hb : b = a + 1 + firstSomeIdx (y.drop (a + 1)) := rfl
    have hcond : ¬ (a ≤ k ∧ k < b) := by
      rintro ⟨hak, hkb⟩
      rcases Nat.eq_or_lt_of_le hak with hak2 | hak2
      · rw [← hak2] at hk
        rw [hk] at hs
        simp at hs
      · have hdrop : (y.drop (a + 1)).getD (k - (a + 1)) none = none :=
          firstSomeIdx_below_none (y.drop (a + 1)) (k - (a + 1)) (by omega)
        rw [getD_drop, show a + 1 + (k - (a + 1)) = k by omega, hk] at hdrop
        exact Option.noConfusion hdrop
    exact ih k v ((writeRun_getD_out xp y a b k hcond).trans hk)
  | case3 y a h =>
    intro k v hk
    rw [fillInterior, dif_neg h]
    exact hk

theorem fillInterior_all_some (xp : List ℚ) :
    ∀ (y : List (Option ℚ)) (a : ℕ), ∀ k, a ≤ k → k < y.length →
      ((fillInterior xp y a).getD k none).isSome := by
  intro y a
  induction y, a using fillInterior.induct xp with
  | case1 y a h hs ih =>
    intro k hak hklen
    rw [fillInterior, dif_pos h, if_pos hs]
    rcases Nat.eq_or_lt_of_le hak with hak2 | hak2
    · obtain ⟨v, hv⟩ := Option.isSome_iff_exists.1 hs
      subst hak2
      rw [fillInterior_getD_some xp y (a + 1) a v hv]
      rfl
    · exact ih k (by omega) hklen
  | case2 y a h hs b ih =>
    intro k hak hklen
    rw [fillInterior, dif_pos h, if_neg hs]
    have hb : b = a + 1 + firstSomeIdx (y.drop (a + 1)) := rfl
    by_cases hkb : k < b
    · have e1 : (fillInterior xp (writeRun xp y a b) b).getD k none =
          (writeRun xp y a b).getD k none :=
        fillInterior_getD_lt xp (writeRun xp y a b) b k hkb
      have e2 := writeRun_getD_in xp y a b k hklen hak hkb
      rw [e1, e2]
      rfl
    · exact ih k (by omega) (by rw [writeRun_length]; exact hklen)
  | case3 y a h =>
    intro k hak hklen
    omega

theorem fillInterior_id (xp : List ℚ) :
    ∀ (y : List (Option ℚ)) (a : ℕ),
      (∀ k, a ≤ k → k < y.length → (y.getD k none).isSome) →
      fillInterior xp y a = y := by
  intro y a
  induction y, a using fillInterior.induct xp with
  | case1 y a h hs ih =>
    intro hall
    rw [fillInterior, dif_pos h, if_pos hs]
    exact ih (fun k hk hklen => hall k (by omega) hklen)
  | case2 y a h hs b ih =>
    intro hall
    exact absurd (hall a le_rfl h) hs
  | case3 y a h =>
    intro _
    rw [fillInterior, dif_neg h]

/-- The run lemma: if the current array has a null run over [A, B) with
valid values v0 at A-1 and v1 at B, then continuing the interior pass
from any s ≤ A fills every position of the run with the linear
interpolation of the source, evaluated at the time coordinate of that
position. -/
theorem fillInterior_run (xp : List ℚ) :
    ∀ (y : List (Option ℚ)) (s : ℕ), ∀ (A B : ℕ) (v0 v1 : ℚ),
      s ≤ A → 0 < A → A < B → B < y.length →
      y.getD (A - 1) none = some v0 → y.getD B none = some v1 →
      (∀ m, A ≤ m → m < B → y.getD m none = none) →
      ∀ k, A ≤ k → k < B →
        (fillInterior xp y s).getD k none =
          some (v0 + (v1 - v0) * (nthD xp k - nthD xp (A - 1)) /
            (nthD xp B - nthD xp (A - 1))) := by
  intro y s
  induction y, s using fillInterior.induct xp with
  | case1 y s h hs ih =>
    intro A B v0 v1 hsA h0A hAB hBlen hv0 hv1 hrun k hAk hkB
    rw [fillInterior, dif_pos h, if_pos hs]
    have hsA2 : s < A := by
      rcases Nat.eq_or_lt_of_le hsA with h2 | h2
      · rw [← h2] at hrun
        rw [hrun s le_rfl (by omega)] at hs
        simp at hs
      · exact h2
    exact ih A B v0 v1 (by omega) h0A hAB hBlen hv0 hv1 hrun k hAk hkB
  | case2 y s h hs b ih =>
    intro A B v0 v1 hsA h0A hAB hBlen hv0 hv1 hrun k hAk hkB
    rw [fillInterior, dif_pos h, if_neg hs]
    have hb : b = s + 1 + firstSomeIdx (y.drop (s + 1)) := rfl
    by_cases hsA2 : s = A
    · subst hsA2
      have hchar : firstSomeIdx (y.drop (s + 1)) = B - (s + 1) := by
        refine firstSomeIdx_eq_of_char (y.drop (s + 1)) (B - (s + 1)) v1 ?_ ?_
        · rw [getD_drop, show s + 1 + (B - (s + 1)) = B by omega]
          exact hv1
        · intro m hm
          rw [getD_drop]
          exact hrun (s + 1 + m) (by omega) (by omega)
      have hbB : b = B := by omega
      have e1 : (fillInterior xp (writeRun xp y s b) b).getD k none =
          (writeRun xp y s b).getD k none :=
        fillInterior_getD_lt xp (writeRun xp y s b) b k (by omega)
      have e2 := writeRun_getD_in xp y s b k (by omega) hAk (by omega)
      have hj0 : jval y (s - 1) = v0 := by
        rw [jval, hv0]
        rfl
      have hj1 : jval y b = v1 := by
        rw [jval, hbB, hv1]
        rfl
      rw [e1, e2, hj0, hj1, hbB]
    · have hslt : s < A := by omega
      have hsltA1 : s + 1 ≤ A - 1 := by
        rcases Nat.eq_or_lt_of_le (show s ≤ A - 1 by omega) with h2 | h2
        · rw [h2] at hs
          rw [hv0] at hs
          simp at hs
        · omega
      have hble : b ≤ A - 1 := by
        have hF : firstSomeIdx (y.drop (s + 1)) ≤ A - 1 - (s + 1) := by
          refine firstSomeIdx_le_of_some (y.drop (s + 1)) (A - 1 - (s + 1)) v0 ?_
          rw [getD_drop, show s + 1 + (A - 1 - (s + 1)) = A - 1 by omega]
          exact hv0
        omega
      exact ih A B v0 v1 (by omega) h0A hAB
        (by rw [writeRun_length]; exact hBlen)
        (by rw [writeRun_getD_out xp y s b (A - 1) (by omega)]; exact hv0)
        (by rw [writeRun_getD_out xp y s b B (by omega)]; exact hv1)
        (by
          intro m hm1 hm2
          rw [writeRun_getD_out xp y s b m (by omega)]
          exact hrun m hm1 hm2)
        k hAk hkB
  | case3 y s h =>
    intro A B v0 v1 hsA h0A hAB hBlen hv0 hv1 hrun k hAk hkB
    omega

/-! ## fillNaLinear: the claims about runs and idempotence -/

theorem fillNaLinear_length (xp : List ℚ) (yp : List (Option ℚ)) :
    (fillNaLinear xp yp).length = yp.length := by
  rw [fillNaLinear, fillInterior_length, fillTrailing_length, fillLeading_length]

theorem fillNaLinear_all_some (xp : List ℚ) (yp : List (Option ℚ)) :
    ∀ k, k < yp.length → ((fillNaLinear xp yp).getD k none).isSome := by
  intro k hk
  rw [fillNaLinear]
  exact fillInterior_all_some xp (fillTrailing (fillLeading yp)) 0 k (by omega)
    (by rw [fillTrailing_length, fillLeading_length]; exact hk)

theorem fillLeading_id_of_all (y : List (Option ℚ))
    (hall : ∀ k, k < y.length → (y.getD k none).isSome) : fillLeading y = y := by
  have h0 : firstSomeIdx y = 0 := by
    cases y with
    | nil => rfl
    | cons v rest =>
      rw [firstSomeIdx, if_pos]
      exact hall 0 (by simp)
  simp [fillLeading, h0]

theorem fillTrailing_id_of_all (y : List (Option ℚ))
    (hall : ∀ k, k < y.length → (y.getD k none).isSome) : fillTrailing y = y := by
  cases hls : lastSomeIdx y with
  | none => exact fillTrailing_eq_of_none y hls
  | some j =>
    rw [fillTrailing_eq_of_some y j hls]
    have hspec := lastSomeIdx_spec y j hls
    have hj : ¬ (j + 1 < y.length) := by
      by_contra hc
      have hnone := hspec.2.2 (j + 1) (by omega) (by omega)
      have h2 := hall (j + 1) (by omega)
      rw [hnone] at h2
      simp at h2
    rw [if_neg hj]

/-- Claim C5 theorem.  fillNaLinear is idempotent: one application
leaves no nulls, and on a null-free input all three passes are the
identity, so a second application changes nothing. -/
theorem fillNaLinear_idempotent (xp : List ℚ) (yp : List (Option ℚ)) :
    fillNaLinear xp (fillNaLinear xp yp) = fillNaLinear xp yp := by
  have hall : ∀ k, k < (fillNaLinear xp yp).length →
      (((fillNaLinear xp yp)).getD k none).isSome := by
    intro k hk
    rw [fillNaLinear_length] at hk
    exact fillNaLinear_all_some xp yp k hk
  show fillInterior xp (fillTrailing (fillLeading (fillNaLinear xp yp))) 0 =
    fillNaLinear xp yp
  rw [fillLeading_id_of_all _ hall, fillTrailing_id_of_all _ hall]
  exact fillInterior_id xp (fillNaLinear xp yp) 0 (fun k _ hk => hall k hk)

/-- Claim C4 theorem.  For a series with strictly increasing times (and
times and values of equal length), fillNaLinear (a) replaces a leading
null run with the first valid value, (b) replaces a trailing null run
with the last valid value, and (c) fills every position k of an interior
null run bounded by valid values v0 (at index a-1) and v1 (at index b)
with the linear interpolation between v0 and v1 evaluated at the time
coordinate times[k] — not at the index position. -/
theorem fillNaLinear_runs (xp : List ℚ) (yp : List (Option ℚ))
    (hmono : List.Chain' (· < ·) xp) (hlen : xp.length = yp.length) :
    (∀ i v, i < yp.length → yp.getD i none = some v →
      (∀ m, m < i → yp.getD m none = none) →
      ∀ k, k < i → (fillNaLinear xp yp).getD k none = some v) ∧
    (∀ j v, j < yp.length → yp.getD j none = some v →
      (∀ m, j < m → m < yp.length → yp.getD m none = none) →
      ∀ k, j < k → k < yp.length → (fillNaLinear xp yp).getD k none = some v) ∧
    (∀ a b v0 v1, 0 < a → a < b → b < yp.length →
      yp.getD (a - 1) none = some v0 → yp.getD b none = some v1 →
      (∀ m, a ≤ m → m < b → yp.getD m none = none) →
      ∀ k, a ≤ k → k < b →
        (fillNaLinear xp yp).getD k none =
          some (v0 + (v1 - v0) * (nthD xp k - nthD xp (a - 1)) /
            (nthD xp b - nthD xp (a - 1)))) := by
  refine ⟨?_, ?_, ?_⟩
  · intro i v hi hv hbelow k hk
    have hfi : firstSomeIdx yp = i := firstSomeIdx_eq_of_char yp i v hv hbelow
    rw [fillNaLinear]
    have h1 : (fillLeading yp).getD k none = some v := by
      rw [fillLeading_getD_lt yp k (by omega) (by omega) (by omega), hfi]
      exact hv
    have h2 : (fillTrailing (fillLeading yp)).getD k none = some v := by
      obtain ⟨j2, hj2, hj2ge⟩ := lastSomeIdx_some_of_getD (fillLeading yp) i v
        (by rw [fillLeading_getD_ge yp i (by omega)]; exact hv)
        (by rw [fillLeading_length]; exact hi)
      rw [fillTrailing_getD_le (fillLeading yp) j2 k hj2 (by omega)]
      exact h1
    exact fillInterior_getD_some xp (fillTrailing (fillLeading yp)) 0 k v h2
  · intro j v hj hv habove k hk1 hk2
    rw [fillNaLinear]
    have hfile : firstSomeIdx yp ≤ j := firstSomeIdx_le_of_some yp j v hv
    have h1j : (fillLeading yp).getD j none = some v := by
      rw [fillLeading_getD_ge yp j hfile]
      exact hv
    have h1above : ∀ m, j < m → m < yp.length → (fillLeading yp).getD m none = none := by
      intro m hm1 hm2
      rw [fillLeading_getD_ge yp m (by omega)]
      exact habove m hm1 hm2
    have hls : lastSomeIdx (fillLeading yp) = some j := by
      refine lastSomeIdx_eq_of_char (fillLeading yp) j v h1j
        (by rw [fillLeading_length]; exact hj) ?_
      intro m hm1 hm2
      rw [fillLeading_length] at hm2
      exact h1above m hm1 hm2
    have h2 : (fillTrailing (fillLeading yp)).getD k none = some v := by
      rw [fillTrailing_getD_gt (fillLeading yp) j k hls
        (by rw [fillLeading_length]; omega) hk1
        (by rw [fillLeading_length]; exact hk2)]
      exact h1j
    exact fillInterior_getD_some xp (fillTrailing (fillLeading yp)) 0 k v h2
  · intro a b v0 v1 h0a hab hblen hv0 hv1 hrun k hk1 hk2
    rw [fillNaLinear]
    have hfile : firstSomeIdx yp ≤ a - 1 := firstSomeIdx_le_of_some yp (a - 1) v0 hv0
    have hL : ∀ m, a - 1 ≤ m → (fillLeading yp).getD m none = yp.getD m none := by
      intro m hm
      exact fillLeading_getD_ge yp m (by omega)
    obtain ⟨j2, hj2, hj2ge⟩ := lastSomeIdx_some_of_getD (fillLeading yp) b v1
      (by rw [hL b (by omega)]; exact hv1)
      (by rw [fillLeading_length]; exact hblen)
    have hT : ∀ m, a - 1 ≤ m → m ≤ b →
        (fillTrailing (fillLeading yp)).getD m none = yp.getD m none := by
      intro m hm1 hm2
      rw [fillTrailing_getD_le (fillLeading yp) j2 m hj2 (by omega), hL m hm1]
    refine fillInterior_run xp (fillTrailing (fillLeading yp)) 0 a b v0 v1
      (by omega) h0a hab ?_ ?_ ?_ ?_ k hk1 hk2
    · rw [fillTrailing_length, fillLeading_length]
      exact hblen
    · rw [hT (a - 1) le_rfl (by omega)]
      exact hv0
    · rw [hT b (by omega) le_rfl]
      exact hv1
    · intro m hm1 hm2
      rw [hT m (by omega) (by omega)]
      exact hrun m hm1 hm2

/-- Claim C4 witness: a 0.5-second style gap over irregular timestamps
[0, 1, 3, 6] is bridged by time-based interpolation: position 2, at time
3, receives 15 (index-based filling would give 20). -/
theorem fillNaLinear_runs_witness :
    (fillNaLinear [0, 1, 3, 6] [some 0, none, none, some 30]).getD 2 none = some 15 := by
  have h := (fillNaLinear_runs [0, 1, 3, 6] [some 0, none, none, some 30]
    (by norm_num [List.chain'_cons]) (by norm_num)).2.2 1 3 0 30
    (by norm_num) (by norm_num) (by norm_num)
    (by norm_num) (by norm_num)
    (by
      intro m hm1 hm2
      interval_cases m <;> rfl)
    2 (by norm_num) (by norm_num)
  rw [h]
  norm_num [nthD]

/-! ## Time-mode RMSE pairing (claim C1) -/

theorem fillNaLinear_id_of_all (xp : List ℚ) (yp : List (Option ℚ))
    (hall : ∀ k, k < yp.length → (yp.getD k none).isSome) :
    fillNaLinear xp yp = yp := by
  show fillInterior xp (fillTrailing (fillLeading yp)) 0 = yp
  rw [fillLeading_id_of_all _ hall, fillTrailing_id_of_all _ hall]
  exact fillInterior_id xp yp 0 (fun k _ hk => hall k hk)

theorem linInterp_isSome (x : ℚ) (xp yp : List ℚ)
    (hx : xp.length ≠ 0) (hy : yp.length ≠ 0) : (linInterp x xp yp).isSome = true := by
  rw [linInterp, if_neg (by simp [hx, hy])]
  split
  · rfl
  · split
    · rfl
    · rfl

theorem filterMap_id_length_of_all_some :
    ∀ (l : List (Option ℚ)), (∀ v ∈ l, v.isSome) → (l.filterMap id).length = l.length := by
  intro l
  induction l with
  | nil => intro _; rfl
  | cons v rest ih =>
    intro hall
    obtain ⟨u, hu⟩ := Option.isSome_iff_exists.1 (hall v (List.mem_cons_self v rest))
    subst hu
    simp only [List.filterMap_cons, id]
    rw [List.length_cons, ih (fun w hw => hall w (List.mem_cons_of_mem _ hw))]
    rfl

theorem specPairs_of_all_some :
    ∀ (a b : List (Option ℚ)),
      (∀ v ∈ a, v.isSome) → (∀ v ∈ b, v.isSome) →
      specPairs a b = (a.filterMap id).zip (b.filterMap id) := by
  intro a
  induction a with
  | nil => intro b _ _; simp [specPairs]
  | cons x a' ih =>
    intro b ha hb
    cases b with
    | nil =>
      obtain ⟨u, hu⟩ := Option.isSome_iff_exists.1 (ha x (List.mem_cons_self x a'))
      subst hu
      simp [specPairs]
    | cons y b' =>
      obtain ⟨u, hu⟩ := Option.isSome_iff_exists.1 (ha x (List.mem_cons_self x a'))
      obtain ⟨w, hw⟩ := Option.isSome_iff_exists.1 (hb y (List.mem_cons_self y b'))
      subst hu
      subst hw
      simp only [specPairs, List.zip_cons_cons, List.filterMap_cons, id]
      exact congrArg (List.cons (u, w))
        (ih b' (fun v hv => ha v (List.mem_cons_of_mem _ hv))
          (fun v hv => hb v (List.mem_cons_of_mem _ hv)))

theorem specRmseSq_eq_of_all_some (a b : List (Option ℚ))
    (ha : ∀ v ∈ a, v.isSome) (hb : ∀ v ∈ b, v.isSome) :
    specRmseSq a b = rmseSq (a.filterMap id) (b.filterMap id) := by
  rw [specRmseSq, rmseSq, specPairs_of_all_some a b ha hb]
  simp only [List.length_map]

/-- Claim C1 amended theorem.  With a nonempty candidate series, the
time-branch RMSE is null exactly when the reference channel has no
non-null sample; and when the reference channel is non-null at every
index, the positional pairing after independent filtering coincides with
the spec's both-non-null pairing, so code and spec RMSE agree. -/
theorem timeModeRmse_pairing (refT cmpT : List ℚ) (refY cmpYraw : List (Option ℚ))
    (hlen : refY.length = refT.length)
    (hc1 : cmpT ≠ []) (hc2 : cmpYraw ≠ []) :
    ((∀ v ∈ refY, v.isSome) →
      timeModeRmse refT cmpT refY cmpYraw = specTimeModeRmse refT cmpT refY cmpYraw) ∧
      (timeModeRmse refT cmpT refY cmpYraw = none ↔ refY.filterMap id = []) := by
  have hcmplen : ((fillNaLinear cmpT cmpYraw).map (fun v => v.getD 0)).length ≠ 0 := by
    rw [List.length_map, fillNaLinear_length]
    simpa using hc2
  have hcmpYall : ∀ v ∈ refT.map (fun t =>
      linInterp t cmpT ((fillNaLinear cmpT cmpYraw).map (fun v => v.getD 0))), v.isSome := by
    intro v hv
    obtain ⟨t, _, rfl⟩ := List.mem_map.1 hv
    exact linInterp_isSome t cmpT _ (by simpa using hc1) hcmplen
  constructor
  · intro hall
    rw [timeModeRmse, specTimeModeRmse]
    have he : timeModeRmseSq refT cmpT refY cmpYraw =
        specTimeModeRmseSq refT cmpT refY cmpYraw := by
      rw [timeModeRmseSq, specTimeModeRmseSq,
        specRmseSq_eq_of_all_some refY _ hall hcmpYall]
    rw [he]
  · rw [timeModeRmse, timeModeRmseSq]
    constructor
    · intro hnone
      simp only [Option.map_eq_none] at hnone
      rw [rmseSq] at hnone
      by_cases hzip : ((refY.filterMap id).zip
          ((refT.map (fun t => linInterp t cmpT
            ((fillNaLinear cmpT cmpYraw).map (fun v => v.getD 0)))).filterMap id)).length = 0
      · have hfb : ((refT.map (fun t => linInterp t cmpT
            ((fillNaLinear cmpT cmpYraw).map (fun v => v.getD 0)))).filterMap id).length =
            refT.length := by
          rw [filterMap_id_length_of_all_some _ hcmpYall, List.length_map]
        rw [List.length_zip, hfb] at hzip
        rcases Nat.min_eq_zero_iff.1 hzip with h | h
        · exact List.length_eq_zero.1 h
        · have : refY.length = 0 := by omega
          have : refY = [] := List.length_eq_zero.1 this
          subst this
          rfl
      · rw [if_neg (by simpa using hzip)] at hnone
        exact Option.noConfusion hnone
    · intro hfa
      rw [rmseSq, hfa]
      simp

/-- Claim C1 amended witness: a fully non-null reference channel, where
code and spec pairing agree. -/
theorem timeModeRmse_pairing_witness :
    timeModeRmse [0, 1] [0, 1] [some 1, some 2] [some 1, some 3] =
      specTimeModeRmse [0, 1] [0, 1] [some 1, some 2] [some 1, some 3] :=
  (timeModeRmse_pairing [0, 1] [0, 1] [some 1, some 2] [some 1, some 3]
    (by norm_num) (by simp) (by simp)).1 (by simp)

/-- Claim C1 counterexample.  With a null in the reference channel, the
code pairs the filtered lists positionally (10 against the resample at
time 0, giving RMSE 10) while the spec pairs at common non-null index
positions (10 against the resample at time 1, giving RMSE 90): the two
disagree on this input. -/
theorem timeModeRmse_pairing_cex :
    timeModeRmse [0, 1] [0, 1] [none, some 10] [some 0, some 100] ≠
      specTimeModeRmse [0, 1] [0, 1] [none, some 10] [some 0, some 100] := by
  have hfill : fillNaLinear [0, 1] [some 0, some 100] = [some 0, some 100] := by
    refine fillNaLinear_id_of_all [0, 1] [some 0, some 100] ?_
    intro k hk
    simp only [List.length_cons, List.length_nil] at hk
    interval_cases k <;> rfl
  have e1 : timeModeRmseSq [0, 1] [0, 1] [none, some 10] [some 0, some 100] =
      some 100 := by
    rw [timeModeRmseSq, hfill]
    norm_num [linInterp, nthD, rmseSq, listSum, List.filterMap_cons, List.filterMap_nil,
      List.zip_cons_cons]
  have e2 : specTimeModeRmseSq [0, 1] [0, 1] [none, some 10] [some 0, some 100] =
      some 8100 := by
    rw [specTimeModeRmseSq, hfill]
    norm_num [linInterp, nthD, specRmseSq, specPairs, listSum, List.filterMap_cons,
      List.filterMap_nil, List.zip_cons_cons]
  intro h
  rw [timeModeRmse, specTimeModeRmse, e1, e2] at h
  have h2 : Real.sqrt ((100 : ℚ) : ℝ) = Real.sqrt ((8100 : ℚ) : ℝ) := by
    have := congrArg (fun o => o.getD 0) h
    simpa using this
  have hlt : Real.sqrt ((100 : ℚ) : ℝ) < Real.sqrt ((8100 : ℚ) : ℝ) := by
    apply Real.sqrt_lt_sqrt
    · norm_num
    · norm_num
  rw [h2] at hlt
  exact lt_irrefl _ hlt

/-! ## Channel skipping in runCompareMulti (claim C7) -/

theorem timeFold_datasets (refT cmpT : List ℚ) (refS cmpS : List Sample) :
    ∀ (ks : List Chan) (st : CmpState),
      (ks.foldl (timeChannelStep refT cmpT refS cmpS) st).datasets =
        st.datasets + 2 * ks.length := by
  intro ks
  induction ks with
  | nil => intro st; simp
  | cons k ks ih =>
    intro st
    rw [List.foldl_cons, ih]
    show (timeChannelStep refT cmpT refS cmpS st k).datasets + 2 * ks.length =
      st.datasets + 2 * (k :: ks).length
    rw [timeChannelStep]
    simp only [List.length_cons]
    ring

theorem cycleChannelStep_skip (refT cmpT : List ℚ) (refS cmpS : List Sample)
    (st : CmpState) (k : Chan) (h : cycleSkip refT cmpT refS cmpS k) :
    cycleChannelStep refT cmpT refS cmpS st k = st := by
  by_cases h1 : chanColValid refS k = [] ∨ chanColValid cmpS k = []
  · rw [cycleChannelStep, if_pos h1]
  · have h2 : cyclesFor refT refS k = [] ∨ cyclesFor cmpT cmpS k = [] := by
      rcases h with h | h | h | h
      · exact absurd (Or.inl h) h1
      · exact absurd (Or.inr h) h1
      · exact Or.inl h
      · exact Or.inr h
    rw [cycleChannelStep, if_neg h1]
    show (if cyclesFor refT refS k = [] ∨ cyclesFor cmpT cmpS k = [] then st else _) = st
    rw [if_pos h2]

theorem cycleFold_const (refT cmpT : List ℚ) (refS cmpS : List Sample) :
    ∀ (ks : List Chan) (st : CmpState),
      (∀ k ∈ ks, cycleSkip refT cmpT refS cmpS k) →
      ks.foldl (cycleChannelStep refT cmpT refS cmpS) st = st := by
  intro ks
  induction ks with
  | nil => intro st _; rfl
  | cons k ks ih =>
    intro st hall
    rw [List.foldl_cons,
      cycleChannelStep_skip refT cmpT refS cmpS st k (hall k (List.mem_cons_self k ks))]
    exact ih st (fun k2 hk2 => hall k2 (List.mem_cons_of_mem _ hk2))

/-- Claim C7 amended theorem.  Skipping exists only in the cycle branch:
whenever at least one channel is requested and every requested channel
fails the cycle-branch guards (no valid sample in one series, or no
cycles in one series), the time branch still produces a result (it never
skips a channel) while the cycle branch reports the no-comparable-data
failure, clearing the stored result and statistics (and leaving the
stored RMSE map untouched). -/
theorem runCompareMulti_skip (refS cmpS : List Sample) (ks : List Chan)
    (h1 : ks ≠ [])
    (h2 : ∀ k ∈ ks, cycleSkip (refS.map (fun s => s.t)) (cmpS.map (fun s => s.t))
      refS cmpS k) :
    runCompareMulti refS cmpS ks false ≠ CompareEffect.failure ∧
      runCompareMulti refS cmpS ks true = CompareEffect.failure := by
  constructor
  · rw [runCompareMulti]
    have hd := timeFold_datasets (refS.map (fun s => s.t)) (cmpS.map (fun s => s.t))
      refS cmpS ks ⟨0, [], none, none⟩
    have hne : ¬ ((ks.foldl (timeChannelStep (refS.map (fun s => s.t))
        (cmpS.map (fun s => s.t)) refS cmpS) ⟨0, [], none, none⟩).datasets = 0) := by
      rw [hd]
      have : ks.length ≠ 0 := by
        simpa [List.length_eq_zero] using h1
      omega
    simp only [Bool.false_eq_true, if_false, if_neg hne]
    intro hcontra
    exact CompareEffect.noConfusion hcontra
  · rw [runCompareMulti]
    have hc := cycleFold_const (refS.map (fun s => s.t)) (cmpS.map (fun s => s.t))
      refS cmpS ks ⟨0, [], none, none⟩ h2
    simp only [if_true, hc]

/-- Claim C7 counterexample.  Time mode, one requested channel, the
reference series entirely null on it: the claim demands the channel be
skipped and, all channels being skipped, a no-comparable-data failure
with no stored result; the code instead pushes the channel's datasets
and a null RMSE entry and stores a success result. -/
theorem runCompareMulti_skip_cex :
    runCompareMulti [⟨0, fun _ => none⟩] [⟨0, fun _ => some 5⟩] [Chan.kneeL] false =
        CompareEffect.success [(Chan.kneeL, none)] 2 none none ∧
      runCompareMulti [⟨0, fun _ => none⟩] [⟨0, fun _ => some 5⟩] [Chan.kneeL] false ≠
        CompareEffect.failure := by
  have hfill : fillNaLinear [(0 : ℚ)] [some (5 : ℚ)] = [some 5] := by
    refine fillNaLinear_id_of_all [0] [some 5] ?_
    intro k hk
    simp only [List.length_cons, List.length_nil] at hk
    interval_cases k <;> rfl
  have hrmse : timeModeRmseSq [0] [0] [none] [some 5] = none := by
    rw [timeModeRmseSq, hfill]
    norm_num [linInterp, nthD, rmseSq, listSum, List.filterMap_cons, List.filterMap_nil,
      List.zip_cons_cons]
  have hmain : runCompareMulti [⟨0, fun _ => none⟩] [⟨0, fun _ => some 5⟩]
      [Chan.kneeL] false = CompareEffect.success [(Chan.kneeL, none)] 2 none none := by
    rw [runCompareMulti]
    simp only [List.map_cons, List.map_nil, Bool.false_eq_true, if_false,
      List.foldl_cons, List.foldl_nil]
    rw [show timeChannelStep [(0 : ℚ)] [(0 : ℚ)] [⟨0, fun _ => none⟩]
        [⟨0, fun _ => some 5⟩] ⟨0, [], none, none⟩ Chan.kneeL =
        ⟨2, [(Chan.kneeL, none)], none, none⟩ from by
      rw [timeChannelStep]
      simp only [chanCol, List.map_cons, List.map_nil]
      rw [hrmse]
      norm_num]
    rfl
  refine ⟨hmain, ?_⟩
  rw [hmain]
  intro hcontra
  exact CompareEffect.noConfusion hcontra

/-- Claim C7 amended witness: the same concrete input discharges the
hypotheses of the amended theorem — the unique requested channel fails
the cycle-branch guards, so cycle mode fails and time mode does not. -/
theorem runCompareMulti_skip_witness :
    runCompareMulti [⟨0, fun _ => none⟩] [⟨0, fun _ => some 5⟩] [Chan.kneeL] false ≠
        CompareEffect.failure ∧
      runCompareMulti [⟨0, fun _ => none⟩] [⟨0, fun _ => some 5⟩] [Chan.kneeL] true =
        CompareEffect.failure :=
  runCompareMulti_skip [⟨0, fun _ => none⟩] [⟨0, fun _ => some 5⟩] [Chan.kneeL]
    (by simp)
    (by
      intro k hk
      left
      simp [chanColValid, chanCol])

end RunningForm
